import Mathlib

set_option maxRecDepth 4000

/-! Verification of the python-switchos wire codec, validator and save
orchestration. Python strings are embedded as lists of Unicode code points,
wire values as naturals (hex literals) or code-point lists (quoted hex
strings), and each transform of `utils.py`, the validator of
`validation.py`, the port-count inference of `endpoint.py` and the save
control flow of `client.py` is translated into an executable definition. -/

/-- Embedding of a Python string as its list of Unicode code points. -/
abbrev PyStr := List Nat

/-- Code points of a Lean string literal, used to write Python string constants. -/
def lit (s : String) : PyStr := s.data.map Char.toNat

/-- Digit value 0-15 to its ASCII code, lowercase letters for 10-15,
as produced by Python number formatting. -/
def digitToChar (d : Nat) : Nat := if d < 10 then 48 + d else 87 + d

/-- Fuel-driven digit expansion of a natural number in the given base,
mirroring the digit strings Python formatting emits (most significant first,
a single digit for zero). The fuel is an upper bound on the value. -/
def natToDigitsAux (base : Nat) : Nat → Nat → List Nat
  | 0, v => [digitToChar (v % base)]
  | fuel+1, v =>
    if v < base then [digitToChar v]
    else natToDigitsAux base fuel (v / base) ++ [digitToChar (v % base)]

/-- Digit string of `v` in `base`, as Python renders it. -/
def natToDigits (base v : Nat) : List Nat := natToDigitsAux base v v

/-- Value of an ASCII hex digit, accepting both letter cases like Python. -/
def hexDigitVal (c : Nat) : Option Nat :=
  if 48 ≤ c ∧ c ≤ 57 then some (c - 48)
  else if 97 ≤ c ∧ c ≤ 102 then some (c - 87)
  else if 65 ≤ c ∧ c ≤ 70 then some (c - 55)
  else none

/-- Value of an ASCII decimal digit. -/
def decDigitVal (c : Nat) : Option Nat :=
  if 48 ≤ c ∧ c ≤ 57 then some (c - 48) else none

/-- Positional parse of a digit string with a given digit reader,
most significant digit first; fails on any non-digit. -/
def parseDigitsFrom (base : Nat) (dv : Nat → Option Nat) (acc : Nat) :
    List Nat → Option Nat
  | [] => some acc
  | c :: t =>
    match dv c with
    | some d => parseDigitsFrom base dv (base * acc + d) t
    | none => none

theorem digitToChar_hexVal {d : Nat} (h : d < 16) :
    hexDigitVal (digitToChar d) = some d := by
  interval_cases d <;> decide

theorem digitToChar_decVal {d : Nat} (h : d < 10) :
    decDigitVal (digitToChar d) = some d := by
  interval_cases d <;> decide

theorem natToDigitsAux_ne_nil (base fuel v : Nat) :
    natToDigitsAux base fuel v ≠ [] := by
  cases fuel with
  | zero => simp [natToDigitsAux]
  | succ f =>
    by_cases h : v < base <;> simp [natToDigitsAux, h]

theorem natToDigits_ne_nil (base v : Nat) : natToDigits base v ≠ [] :=
  natToDigitsAux_ne_nil base v v

theorem parseDigitsFrom_natToDigitsAux (base : Nat) (dv : Nat → Option Nat)
    (hb : 2 ≤ base) (hdv : ∀ d, d < base → dv (digitToChar d) = some d) :
    ∀ fuel v acc, v ≤ fuel →
      parseDigitsFrom base dv acc (natToDigitsAux base fuel v) =
        some (acc * base ^ (natToDigitsAux base fuel v).length + v) := by
  intro fuel
  induction fuel with
  | zero =>
    intro v acc hv
    have hv0 : v = 0 := Nat.le_zero.mp hv
    subst hv0
    have h0 : (0 : Nat) % base = 0 := Nat.zero_mod base
    simp [natToDigitsAux, parseDigitsFrom, h0, hdv 0 (by omega), Nat.mul_comm]
  | succ f ih =>
    intro v acc hv
    by_cases h : v < base
    · simp [natToDigitsAux, h, parseDigitsFrom, hdv v h, Nat.mul_comm]
    · have hrec : v / base ≤ f := by
        have h1 : v / base < v := Nat.div_lt_self (by omega) (by omega)
        omega
      have hmod : v % base < base := Nat.mod_lt v (by omega)
      rw [natToDigitsAux]
      simp only [if_neg h]
      rw [List.length_append]
      generalize hLen : (natToDigitsAux base f (v / base)).length = n
      have hsplit : ∀ a l1 l2,
          parseDigitsFrom base dv a (l1 ++ l2) =
            match parseDigitsFrom base dv a l1 with
            | some r => parseDigitsFrom base dv r l2
            | none => none := by
        intro a l1
        induction l1 generalizing a with
        | nil => intro l2; rfl
        | cons c t iht =>
          intro l2
          simp only [List.cons_append, parseDigitsFrom]
          cases dv c with
          | none => rfl
          | some d => exact iht _ l2
      rw [hsplit, ih (v / base) acc hrec, hLen]
      simp only [parseDigitsFrom, hdv _ hmod, List.length_singleton]
      have harith : base * (acc * base ^ n + v / base) + v % base =
          acc * base ^ (n + 1) + v := by
        have hdm : base * (v / base) + v % base = v := Nat.div_add_mod v base
        have hpow : base ^ (n + 1) = base ^ n * base := by
          rw [Nat.pow_succ]
        calc base * (acc * base ^ n + v / base) + v % base
            = acc * (base ^ n * base) + (base * (v / base) + v % base) := by ring
          _ = acc * base ^ (n + 1) + v := by rw [hpow, hdm]
      exact congrArg some harith

theorem parseDigitsFrom_natToDigits (base : Nat) (dv : Nat → Option Nat)
    (hb : 2 ≤ base) (hdv : ∀ d, d < base → dv (digitToChar d) = some d)
    (v : Nat) : parseDigitsFrom base dv 0 (natToDigits base v) = some v := by
  have h := parseDigitsFrom_natToDigitsAux base dv hb hdv v v 0 (Nat.le_refl v)
  simpa [natToDigits] using h

theorem parseHexDigits_natToDigits (v : Nat) :
    parseDigitsFrom 16 hexDigitVal 0 (natToDigits 16 v) = some v :=
  parseDigitsFrom_natToDigits 16 hexDigitVal (by omega)
    (fun d hd => digitToChar_hexVal hd) v

theorem parseDecDigits_natToDigits (v : Nat) :
    parseDigitsFrom 10 decDigitVal 0 (natToDigits 10 v) = some v :=
  parseDigitsFrom_natToDigits 10 decDigitVal (by omega)
    (fun d hd => digitToChar_decVal hd) v

/-- Even-digit padding shared by int_to_hex and bool_list_to_hex:
a leading ASCII zero is added when the digit count is odd. -/
def evenPad (l : List Nat) : List Nat :=
  if l.length % 2 = 1 then 48 :: l else l

theorem parseDigitsFrom_evenPad (l : List Nat) :
    parseDigitsFrom 16 hexDigitVal 0 (evenPad l) =
      parseDigitsFrom 16 hexDigitVal 0 l := by
  unfold evenPad
  by_cases h : l.length % 2 = 1
  · simp [h, parseDigitsFrom, hexDigitVal]
  · simp [h]

theorem evenPad_ne_nil {l : List Nat} (h : l ≠ []) : evenPad l ≠ [] := by
  unfold evenPad
  by_cases hl : l.length % 2 = 1 <;> simp [hl, h]

/-- Parse of a 0x hex wire literal, with the numeric semantics the wire
parser gives such literals; a sign or any non-digit is rejected. -/
def parseWireHex (s : PyStr) : Option Nat :=
  match s with
  | 48 :: 120 :: rest =>
    if rest = [] then none else parseDigitsFrom 16 hexDigitVal 0 rest
  | _ => none

theorem parseWireHex_hexLit (v : Nat) :
    parseWireHex (lit "0x" ++ evenPad (natToDigits 16 v)) = some v := by
  have hne : evenPad (natToDigits 16 v) ≠ [] :=
    evenPad_ne_nil (natToDigits_ne_nil 16 v)
  show parseWireHex (48 :: 120 :: evenPad (natToDigits 16 v)) = some v
  unfold parseWireHex
  simp only [if_neg hne]
  rw [parseDigitsFrom_evenPad, parseHexDigits_natToDigits]

/-- int_to_hex from utils.py, at integer input with scale absent (the
float-scaling branch is outside the integer claims). Python formats a
negative value with a leading minus sign, so the sign character 45
lands inside the digit string. -/
def int_to_hex (value : Int) : PyStr :=
  if value = 0 then lit "0x00"
  else
    let hexStr : List Nat :=
      if value < 0 then 45 :: natToDigits 16 value.natAbs
      else natToDigits 16 value.toNat
    lit "0x" ++ evenPad hexStr

/-- process_int from utils.py at a scalar wire value with scale absent:
two's-complement reinterpretation over the declared bit width.
bits = 0 models a Python bits of None or 0, both falsy. -/
def process_int (signed : Bool) (bits : Nat) (value : Nat) : Int :=
  if signed = true ∧ bits ≠ 0 ∧ 2 ^ (bits - 1) ≤ value then
    (value : Int) - 2 ^ bits
  else (value : Int)

theorem parseWireHex_int_to_hex_nonneg (x : Int) (hx : 0 ≤ x) :
    parseWireHex (int_to_hex x) = some x.toNat := by
  unfold int_to_hex
  by_cases h0 : x = 0
  · subst h0; decide
  · have hpos : ¬ x < 0 := by omega
    simp only [if_neg h0, if_neg hpos]
    exact parseWireHex_hexLit x.toNat

/-- Length of Python's binary rendering of v (at least one digit). -/
def binWidthAux : Nat → Nat → Nat
  | 0, _ => 1
  | fuel+1, v => if v < 2 then 1 else binWidthAux fuel (v / 2) + 1

/-- Number of characters in the unpadded binary form of v. -/
def binWidth (v : Nat) : Nat := binWidthAux v v

/-- hex_to_bool_list from utils.py: the zero-padded binary string of the
value, reversed into a least-significant-first boolean list. Python pads
the string to `length` characters but never truncates it, so the result
has max length (binWidth value) entries, not always `length`. -/
def hex_to_bool_list (value : Nat) (length : Nat) : List Bool :=
  (List.range (max length (binWidth value))).map (Nat.testBit value)

/-- Bitmask of a boolean list: translation of the generator expression
sum(1 << i for i, v in enumerate(values) if v) in bool_list_to_hex,
carrying the enumeration index as an explicit argument. -/
def bitSumFrom : Nat → List Bool → Nat
  | _, [] => 0
  | i, b :: t => (if b then 2 ^ i else 0) + bitSumFrom (i + 1) t

/-- bool_list_to_hex from utils.py. -/
def bool_list_to_hex (values : List Bool) : PyStr :=
  if values = [] then lit "0x00"
  else
    let bitmask := bitSumFrom 0 values
    if bitmask = 0 then lit "0x00"
    else lit "0x" ++ evenPad (natToDigits 16 bitmask)

theorem bitSumFrom_shift (l : List Bool) :
    ∀ i, bitSumFrom (i + 1) l = 2 * bitSumFrom i l := by
  induction l with
  | nil => intro i; rfl
  | cons b t ih =>
    intro i
    simp only [bitSumFrom, ih (i + 1)]
    have h2 : 2 ^ (i + 1) = 2 * 2 ^ i := by rw [Nat.pow_succ]; ring
    by_cases hb : b <;> simp [hb, h2] <;> ring

theorem bitSumFrom_cons (b : Bool) (t : List Bool) :
    bitSumFrom 0 (b :: t) = (if b then 1 else 0) + 2 * bitSumFrom 0 t := by
  simp only [bitSumFrom, bitSumFrom_shift, pow_zero]

theorem testBit_bitSumFrom (l : List Bool) :
    ∀ i, Nat.testBit (bitSumFrom 0 l) i = l.getD i false := by
  induction l with
  | nil => intro i; simp [bitSumFrom, Nat.zero_testBit, List.getD]
  | cons b t ih =>
    intro i
    rw [bitSumFrom_cons]
    cases i with
    | zero =>
      rw [Nat.testBit_zero]
      cases b with
      | true => simp [Nat.add_mul_mod_self_left]
      | false => simp [Nat.add_mul_mod_self_left]
    | succ j =>
      rw [Nat.testBit_succ]
      have hdiv : ((if b then 1 else 0) + 2 * bitSumFrom 0 t) / 2 =
          bitSumFrom 0 t := by
        by_cases hb : b <;> simp [hb] <;> omega
      rw [hdiv]
      simpa using ih j

theorem bitSumFrom_replicate_true (n : Nat) :
    bitSumFrom 0 (List.replicate n true) = 2 ^ n - 1 := by
  induction n with
  | zero => rfl
  | succ m ih =>
    rw [List.replicate_succ, bitSumFrom_cons, ih]
    have h1 : 1 ≤ 2 ^ m := Nat.one_le_two_pow
    have h2 : 2 ^ (m + 1) = 2 * 2 ^ m := by rw [Nat.pow_succ]; ring
    simp only [if_true]
    omega

theorem parseWireHex_bool_list_to_hex (l : List Bool) :
    parseWireHex (bool_list_to_hex l) = some (bitSumFrom 0 l) := by
  unfold bool_list_to_hex
  by_cases hnil : l = []
  · subst hnil; decide
  · simp only [if_neg hnil]
    by_cases hz : bitSumFrom 0 l = 0
    · rw [hz]; simp; decide
    · simp only [if_neg hz]
      exact parseWireHex_hexLit (bitSumFrom 0 l)

/-- Code points Python str.rstrip() strips: the str.isspace set. -/
def pyIsSpace (c : Nat) : Bool :=
  (9 ≤ c && c ≤ 13) || (28 ≤ c && c ≤ 32) || c == 133 || c == 160 ||
  c == 5760 || (8192 ≤ c && c ≤ 8202) || c == 8232 || c == 8233 ||
  c == 8239 || c == 8287 || c == 12288

/-- str.rstrip with a character predicate: trailing matching chars removed. -/
def pyRstrip (p : Nat → Bool) (s : PyStr) : PyStr :=
  (s.reverse.dropWhile p).reverse

/-- A code point Python can UTF-8-encode: in Unicode range and not a
surrogate (encoding a surrogate raises in Python). -/
def validPyChar (c : Nat) : Prop := c < 1114112 ∧ ¬(55296 ≤ c ∧ c < 57344)

instance (c : Nat) : Decidable (validPyChar c) := by
  unfold validPyChar; infer_instance

/-- UTF-8 bytes of one code point, as Python str.encode produces. -/
def utf8EncodeChar (c : Nat) : List Nat :=
  if c < 128 then [c]
  else if c < 2048 then [192 + c / 64, 128 + c % 64]
  else if c < 65536 then [224 + c / 4096, 128 + c / 64 % 64, 128 + c % 64]
  else [240 + c / 262144, 128 + c / 4096 % 64, 128 + c / 64 % 64, 128 + c % 64]

/-- UTF-8 bytes of a whole string. -/
def utf8Encode (s : PyStr) : List Nat := s.bind utf8EncodeChar

/-- Whether a byte is a UTF-8 continuation byte. -/
def isCont (b : Nat) : Bool := 128 ≤ b && b < 192

/-- Continuation-byte reader: folds k continuation bytes onto an
accumulated code-point value, failing on a non-continuation byte or
truncated input. -/
def takeCont : Nat → Nat → List Nat → Option (Nat × List Nat)
  | 0, acc, rest => some (acc, rest)
  | _+1, _, [] => none
  | k+1, acc, b :: t =>
    if isCont b then takeCont k (64 * acc + (b - 128)) t else none

/-- UTF-8 decoding to code points with explicit fuel (an upper bound on the
byte count); sequence length and lead value are read off the first byte.
Agrees with bytes.decode on every output of utf8Encode. -/
def utf8DecodeAux : Nat → List Nat → Option (List Nat)
  | _, [] => some []
  | 0, _ :: _ => none
  | fuel+1, b0 :: rest =>
    if b0 < 128 then (utf8DecodeAux fuel rest).map (fun cs => b0 :: cs)
    else if b0 < 192 then none
    else if b0 < 248 then
      match takeCont (if b0 < 224 then 1 else if b0 < 240 then 2 else 3)
          (if b0 < 224 then b0 - 192 else if b0 < 240 then b0 - 224
           else b0 - 240) rest with
      | some (v, t) => (utf8DecodeAux fuel t).map (fun cs => v :: cs)
      | none => none
    else none

/-- UTF-8 decoding of a byte string, as bytes.decode. -/
def utf8Decode (bs : List Nat) : Option (List Nat) :=
  utf8DecodeAux bs.length bs

theorem utf8DecodeAux_encode (s : PyStr) (h : ∀ c ∈ s, c < 1114112) :
    ∀ fuel, (utf8Encode s).length ≤ fuel →
      utf8DecodeAux fuel (utf8Encode s) = some s := by
  induction s with
  | nil =>
    intro fuel _
    cases fuel <;> rfl
  | cons c t ih =>
    intro fuel hfuel
    have hc : c < 1114112 := h c (List.mem_cons_self c t)
    have ht : ∀ x ∈ t, x < 1114112 := fun x hx => h x (List.mem_cons_of_mem c hx)
    have henc : utf8Encode (c :: t) = utf8EncodeChar c ++ utf8Encode t := by
      simp [utf8Encode]
    rw [henc] at hfuel ⊢
    rw [List.length_append] at hfuel
    unfold utf8EncodeChar at hfuel ⊢
    by_cases hA : c < 128
    · simp only [if_pos hA] at hfuel ⊢
      obtain ⟨f, rfl⟩ : ∃ f, fuel = f + 1 := by
        cases fuel with
        | zero => simp at hfuel
        | succ f => exact ⟨f, rfl⟩
      show utf8DecodeAux (f + 1) (c :: utf8Encode t) = some (c :: t)
      unfold utf8DecodeAux
      simp only [if_pos hA]
      rw [ih ht f (by simp at hfuel; omega)]
      rfl
    · by_cases hB : c < 2048
      · simp only [if_neg hA, if_pos hB] at hfuel ⊢
        obtain ⟨f, rfl⟩ : ∃ f, fuel = f + 1 := by
          cases fuel with
          | zero => simp at hfuel
          | succ f => exact ⟨f, rfl⟩
        show utf8DecodeAux (f + 1)
          ((192 + c / 64) :: (128 + c % 64) :: utf8Encode t) = some (c :: t)
        unfold utf8DecodeAux
        simp only [show ¬(192 + c / 64 < 128) by omega,
          show ¬(192 + c / 64 < 192) by omega,
          show 192 + c / 64 < 248 by omega,
          show 192 + c / 64 < 224 by omega, if_neg, if_pos, ite_true,
          ite_false, not_false_eq_true]
        have hcont : isCont (128 + c % 64) = true := by
          simp only [isCont, Bool.and_eq_true, decide_eq_true_eq]; omega
        unfold takeCont
        rw [hcont]
        simp only [if_true, takeCont]
        have hval : 64 * (192 + c / 64 - 192) + (128 + c % 64 - 128) = c := by
          omega
        rw [hval, ih ht f (by simp at hfuel ⊢; omega)]
        rfl
      · by_cases hC : c < 65536
        · simp only [if_neg hA, if_neg hB, if_pos hC] at hfuel ⊢
          obtain ⟨f, rfl⟩ : ∃ f, fuel = f + 1 := by
            cases fuel with
            | zero => simp at hfuel
            | succ f => exact ⟨f, rfl⟩
          show utf8DecodeAux (f + 1)
            ((224 + c / 4096) :: (128 + c / 64 % 64) :: (128 + c % 64) ::
              utf8Encode t) = some (c :: t)
          unfold utf8DecodeAux
          simp only [show ¬(224 + c / 4096 < 128) by omega,
            show ¬(224 + c / 4096 < 192) by omega,
            show 224 + c / 4096 < 248 by omega,
            show ¬(224 + c / 4096 < 224) by omega,
            show 224 + c / 4096 < 240 by omega, if_neg, if_pos, ite_true,
            ite_false, not_false_eq_true]
          have hcont1 : isCont (128 + c / 64 % 64) = true := by
            simp only [isCont, Bool.and_eq_true, decide_eq_true_eq]; omega
          have hcont2 : isCont (128 + c % 64) = true := by
            simp only [isCont, Bool.and_eq_true, decide_eq_true_eq]; omega
          unfold takeCont
          rw [hcont1]
          simp only [if_true]
          unfold takeCont
          rw [hcont2]
          simp only [if_true, takeCont]
          have hval : 64 * (64 * (224 + c / 4096 - 224) +
              (128 + c / 64 % 64 - 128)) + (128 + c % 64 - 128) = c := by
            omega
          rw [hval, ih ht f (by simp at hfuel ⊢; omega)]
          rfl
        · simp only [if_neg hA, if_neg hB, if_neg hC] at hfuel ⊢
          obtain ⟨f, rfl⟩ : ∃ f, fuel = f + 1 := by
            cases fuel with
            | zero => simp at hfuel
            | succ f => exact ⟨f, rfl⟩
          show utf8DecodeAux (f + 1)
            ((240 + c / 262144) :: (128 + c / 4096 % 64) ::
              (128 + c / 64 % 64) :: (128 + c % 64) :: utf8Encode t) =
            some (c :: t)
          unfold utf8DecodeAux
          simp only [show ¬(240 + c / 262144 < 128) by omega,
            show ¬(240 + c / 262144 < 192) by omega,
            show 240 + c / 262144 < 248 by omega,
            show ¬(240 + c / 262144 < 224) by omega,
            show ¬(240 + c / 262144 < 240) by omega, if_neg, if_pos,
            ite_true, ite_false, not_false_eq_true]
          have hcont1 : isCont (128 + c / 4096 % 64) = true := by
            simp only [isCont, Bool.and_eq_true, decide_eq_true_eq]; omega
          have hcont2 : isCont (128 + c / 64 % 64) = true := by
            simp only [isCont, Bool.and_eq_true, decide_eq_true_eq]; omega
          have hcont3 : isCont (128 + c % 64) = true := by
            simp only [isCont, Bool.and_eq_true, decide_eq_true_eq]; omega
          unfold takeCont
          rw [hcont1]
          simp only [if_true]
          unfold takeCont
          rw [hcont2]
          simp only [if_true]
          unfold takeCont
          rw [hcont3]
          simp only [if_true, takeCont]
          have hval : 64 * (64 * (64 * (240 + c / 262144 - 240) +
              (128 + c / 4096 % 64 - 128)) + (128 + c / 64 % 64 - 128)) +
              (128 + c % 64 - 128) = c := by
            omega
          rw [hval, ih ht f (by simp at hfuel ⊢; omega)]
          rfl

theorem utf8Decode_utf8Encode (s : PyStr) (h : ∀ c ∈ s, c < 1114112) :
    utf8Decode (utf8Encode s) = some s :=
  utf8DecodeAux_encode s h (utf8Encode s).length (Nat.le_refl _)

theorem utf8EncodeChar_lt (c : Nat) (h : c < 1114112) :
    ∀ b ∈ utf8EncodeChar c, b < 256 := by
  intro b hb
  unfold utf8EncodeChar at hb
  by_cases hA : c < 128
  · simp [hA] at hb; omega
  · by_cases hB : c < 2048
    · simp [hA, hB] at hb; rcases hb with h1 | h1 <;> omega
    · by_cases hC : c < 65536
      · simp [hA, hB, hC] at hb; rcases hb with h1 | h1 | h1 <;> omega
      · simp [hA, hB, hC] at hb; rcases hb with h1 | h1 | h1 | h1 <;> omega

theorem utf8Encode_lt (s : PyStr) (h : ∀ c ∈ s, c < 1114112) :
    ∀ b ∈ utf8Encode s, b < 256 := by
  intro b hb
  rcases List.mem_bind.mp hb with ⟨c, hc, hbc⟩
  exact utf8EncodeChar_lt c (h c hc) b hbc

/-- bytes.hex(): two lowercase hex digits per byte. -/
def bytesToHex (bs : List Nat) : List Nat :=
  bs.bind (fun b => [digitToChar (b / 16), digitToChar (b % 16)])

/-- bytes.fromhex on a clean even-length hex string: consecutive digit
pairs to bytes, failing on odd length or a non-digit. -/
def hexToBytes : List Nat → Option (List Nat)
  | [] => some []
  | [_] => none
  | c1 :: c2 :: t =>
    match hexDigitVal c1, hexDigitVal c2 with
    | some d1, some d2 => (hexToBytes t).map (fun bs => (16 * d1 + d2) :: bs)
    | _, _ => none

theorem hexToBytes_bytesToHex (bs : List Nat) (h : ∀ b ∈ bs, b < 256) :
    hexToBytes (bytesToHex bs) = some bs := by
  induction bs with
  | nil => rfl
  | cons b t ih =>
    have hb : b < 256 := h b (List.mem_cons_self b t)
    have ht : ∀ x ∈ t, x < 256 := fun x hx => h x (List.mem_cons_of_mem b hx)
    show hexToBytes (digitToChar (b / 16) :: digitToChar (b % 16) ::
      bytesToHex t) = some (b :: t)
    unfold hexToBytes
    rw [digitToChar_hexVal (by omega), digitToChar_hexVal (by omega), ih ht]
    have hval : 16 * (b / 16) + b % 16 = b := by omega
    simp [hval]

/-- hex_to_str from utils.py: bytes.fromhex, UTF-8 decode, then strip
trailing NUL characters and then trailing whitespace. Failure of either
conversion (a Python exception) is modelled as none. -/
def hex_to_str (s : PyStr) : Option PyStr :=
  (hexToBytes s).bind fun bs =>
    (utf8Decode bs).map fun cs =>
      pyRstrip pyIsSpace (pyRstrip (fun c => c == 0) cs)

/-- str_to_hex from utils.py: UTF-8 encode to hex, single-quoted; the
empty string gives a bare pair of quotes. -/
def str_to_hex (s : PyStr) : PyStr :=
  if s = [] then [39, 39]
  else 39 :: (bytesToHex (utf8Encode s) ++ [39])

/-- Extraction of the content of a single-quoted wire string, as the wire
parser delivers it to the decode transforms. -/
def unquote (s : PyStr) : PyStr :=
  match s with
  | 39 :: rest => if rest.getLast? = some 39 then rest.dropLast else 39 :: rest
  | _ => s

theorem unquote_quoted (p : PyStr) : unquote (39 :: (p ++ [39])) = p := by
  simp only [unquote]
  rw [List.getLast?_concat, List.dropLast_concat]
  simp

theorem hex_to_str_str_to_hex (s : PyStr) (hv : ∀ c ∈ s, c < 1114112)
    (hr : pyRstrip pyIsSpace (pyRstrip (fun c => c == 0) s) = s) :
    hex_to_str (unquote (str_to_hex s)) = some s := by
  by_cases hnil : s = []
  · subst hnil; decide
  · unfold str_to_hex
    simp only [if_neg hnil]
    rw [unquote_quoted]
    unfold hex_to_str
    rw [hexToBytes_bytesToHex (utf8Encode s) (utf8Encode_lt s hv)]
    simp only [Option.some_bind]
    rw [utf8Decode_utf8Encode s hv]
    simp only [Option.map_some']
    rw [hr]

/-- ASCII fragment of str.upper, total on the hex-digit strings the MAC
transforms exchange. -/
def pyUpperChar (c : Nat) : Nat := if 97 ≤ c ∧ c ≤ 122 then c - 32 else c

/-- ASCII fragment of str.lower, total on the hex-digit strings the MAC
transforms exchange. -/
def pyLowerChar (c : Nat) : Nat := if 65 ≤ c ∧ c ≤ 90 then c + 32 else c

/-- Non-overlapping pairs of consecutive characters, as the regex findall
of two-character groups produces; a trailing odd character is dropped. -/
def chunk2 : PyStr → List PyStr
  | c1 :: c2 :: t => [c1, c2] :: chunk2 t
  | _ => []

/-- str.join with a separator string. -/
def pyJoin (sep : PyStr) : List PyStr → PyStr
  | [] => []
  | [x] => x
  | x :: y :: t => x ++ sep ++ pyJoin sep (y :: t)

/-- hex_to_mac from utils.py: uppercase, split into hex pairs, join with
colons. -/
def hex_to_mac (s : PyStr) : PyStr :=
  pyJoin [58] (chunk2 (s.map pyUpperChar))

/-- mac_to_hex from utils.py: drop colons, lowercase, single-quote. -/
def mac_to_hex (s : PyStr) : PyStr :=
  if s = [] then [39, 39]
  else 39 :: (((s.filter (fun c => c != 58)).map pyLowerChar) ++ [39])

/-- An uppercase hex digit character, the alphabet of canonical MAC text. -/
def isUpperHexChar (c : Nat) : Prop := (48 ≤ c ∧ c ≤ 57) ∨ (65 ≤ c ∧ c ≤ 70)

instance (c : Nat) : Decidable (isUpperHexChar c) := by
  unfold isUpperHexChar; infer_instance

theorem filter_pyJoin_colon (L : List PyStr)
    (h : ∀ x ∈ L, ∀ c ∈ x, c ≠ 58) :
    (pyJoin [58] L).filter (fun c => c != 58) = L.flatten := by
  induction L with
  | nil => rfl
  | cons x t ih =>
    cases t with
    | nil =>
      show (pyJoin [58] [x]).filter (fun c => c != 58) = x ++ List.flatten []
      have hx : ∀ c ∈ x, c ≠ 58 := h x (List.mem_cons_self x [])
      simp only [pyJoin, List.flatten]
      rw [List.filter_eq_self.mpr]
      · simp
      · intro c hc
        simpa using hx c hc
    | cons y u =>
      show ((x ++ [58] ++ pyJoin [58] (y :: u)).filter (fun c => c != 58)) =
        x ++ (y :: u).flatten
      have hx : ∀ c ∈ x, c ≠ 58 := h x (List.mem_cons_self x _)
      have ht : ∀ z ∈ y :: u, ∀ c ∈ z, c ≠ 58 :=
        fun z hz => h z (List.mem_cons_of_mem x hz)
      rw [List.append_assoc, List.filter_append]
      rw [List.filter_eq_self.mpr (fun c hc => by simpa using hx c hc)]
      have hstep : ([58] ++ pyJoin [58] (y :: u)).filter (fun c => c != 58) =
          (pyJoin [58] (y :: u)).filter (fun c => c != 58) := by
        simp
      rw [hstep, ih ht]

theorem chunk2_join (u : PyStr) (h : u.length % 2 = 0) :
    (chunk2 u).flatten = u :=
  match u with
  | [] => rfl
  | [_] => by simp at h
  | c1 :: c2 :: t => by
    have ht : t.length % 2 = 0 := by
      simp only [List.length_cons] at h
      omega
    show ([c1, c2] :: chunk2 t).flatten = c1 :: c2 :: t
    simp only [List.flatten_cons]
    rw [chunk2_join t ht]
    rfl

theorem chunk2_mem_chars (u : PyStr) :
    ∀ x ∈ chunk2 u, ∀ c ∈ x, c ∈ u :=
  match u with
  | [] => by intro x hx; simp [chunk2] at hx
  | [a] => by intro x hx; simp [chunk2] at hx
  | c1 :: c2 :: t => by
    intro x hx c hc
    have hx2 : x = [c1, c2] ∨ x ∈ chunk2 t := by
      simpa [chunk2] using hx
    rcases hx2 with rfl | hmem
    · simp at hc
      rcases hc with rfl | rfl <;> simp
    · have := chunk2_mem_chars t x hmem c hc
      simp [this]

theorem upper_lower_id {c : Nat} (h : isUpperHexChar c) :
    pyUpperChar (pyLowerChar c) = c := by
  unfold pyUpperChar pyLowerChar isUpperHexChar at *
  rcases h with h1 | h1 <;>
    (repeat' split) <;> omega

theorem mac_roundtrip (u : PyStr) (hlen : u.length = 12)
    (hhex : ∀ c ∈ u, isUpperHexChar c) :
    hex_to_mac (unquote (mac_to_hex (pyJoin [58] (chunk2 u)))) =
      pyJoin [58] (chunk2 u) := by
  have hu58 : ∀ c ∈ u, c ≠ 58 := by
    intro c hc
    have := hhex c hc
    unfold isUpperHexChar at this
    omega
  have hne : pyJoin [58] (chunk2 u) ≠ [] := by
    obtain ⟨c1, c2, rest, rfl⟩ : ∃ c1 c2 rest, u = c1 :: c2 :: rest := by
      cases u with
      | nil => simp at hlen
      | cons a t =>
        cases t with
        | nil => simp at hlen
        | cons b r => exact ⟨a, b, r, rfl⟩
    show pyJoin [58] ([c1, c2] :: chunk2 rest) ≠ []
    cases hrest : chunk2 rest with
    | nil => simp [pyJoin]
    | cons z w => simp [pyJoin]
  unfold mac_to_hex
  simp only [if_neg hne]
  rw [unquote_quoted]
  have hchars : ∀ x ∈ chunk2 u, ∀ c ∈ x, c ≠ 58 :=
    fun x hx c hc => hu58 c (chunk2_mem_chars u x hx c hc)
  rw [filter_pyJoin_colon (chunk2 u) hchars,
    chunk2_join u (by rw [hlen])]
  unfold hex_to_mac
  rw [List.map_map]
  have hcomp : ∀ c ∈ u, (pyUpperChar ∘ pyLowerChar) c = id c := by
    intro c hc
    simp only [Function.comp_apply, id_eq]
    exact upper_lower_id (hhex c hc)
  rw [List.map_congr_left hcomp, List.map_id]

/-- hex_to_ip from utils.py: four little-endian bytes joined as a dotted
quad; int.to_bytes raises for values of 2^32 or more, modelled as none. -/
def hex_to_ip (v : Nat) : Option PyStr :=
  if v < 4294967296 then
    some (pyJoin [46] [natToDigits 10 (v % 256), natToDigits 10 (v / 256 % 256),
      natToDigits 10 (v / 65536 % 256), natToDigits 10 (v / 16777216 % 256)])
  else none

/-- str.split on a single separator character. -/
def pySplit (sep : Nat) : PyStr → List PyStr
  | [] => [[]]
  | c :: t =>
    if c = sep then [] :: pySplit sep t
    else
      match pySplit sep t with
      | [] => [[c]]
      | h :: r => (c :: h) :: r

/-- int() on a plain digit string, as the octet comprehension of ip_to_hex
uses it; a ValueError (empty or non-digit text) is modelled as none. -/
def parseDecStr (s : PyStr) : Option Nat :=
  if s = [] then none else parseDigitsFrom 10 decDigitVal 0 s

/-- The octet list comprehension of ip_to_hex: int() over every split
part, a failure propagating. -/
def parseOctets : List PyStr → Option (List Nat)
  | [] => some []
  | s :: t =>
    match parseDecStr s, parseOctets t with
    | some n, some r => some (n :: r)
    | _, _ => none

/-- ip_to_hex from utils.py: split on dots, parse octets, combine with
shifts and bitwise or, then int_to_hex; fewer than four octets raises
(none), extra octets beyond the fourth are ignored as in the source. -/
def ip_to_hex (s : PyStr) : Option PyStr :=
  if s = [] then some (lit "0x00")
  else
    match parseOctets (pySplit 46 s) with
    | none => none
    | some octets =>
      if 4 ≤ octets.length then
        some
          (let v := octets.getD 0 0 ||| (octets.getD 1 0 <<< 8) |||
            (octets.getD 2 0 <<< 16) ||| (octets.getD 3 0 <<< 24)
          if v = 0 then lit "0x00" else int_to_hex (Int.ofNat v))
      else none

theorem lor_shiftLeft_eq_add {a : Nat} (b n : Nat) (h : a < 2 ^ n) :
    a ||| (b <<< n) = 2 ^ n * b + a := by
  apply Nat.eq_of_testBit_eq
  intro j
  rw [Nat.testBit_lor, Nat.testBit_shiftLeft, Nat.testBit_mul_pow_two_add b h j]
  by_cases hj : j < n
  · have hge : ¬(j ≥ n) := by omega
    simp [hj, hge]
  · have hge : j ≥ n := by omega
    have ha : Nat.testBit a j = false := by
      have hmt := Nat.testBit_mod_two_pow a n j
      rw [Nat.mod_eq_of_lt h] at hmt
      rw [hmt]
      simp [hj]
    simp [hj, hge, ha]

theorem pySplit_sep_cons (sep : Nat) (x y : PyStr) (hx : ∀ c ∈ x, c ≠ sep) :
    pySplit sep (x ++ sep :: y) = x :: pySplit sep y := by
  induction x with
  | nil =>
    show pySplit sep (sep :: y) = [] :: pySplit sep y
    simp [pySplit]
  | cons c t ih =>
    have hc : c ≠ sep := hx c (List.mem_cons_self c t)
    have ht : ∀ d ∈ t, d ≠ sep := fun d hd => hx d (List.mem_cons_of_mem c hd)
    show pySplit sep (c :: (t ++ sep :: y)) = (c :: t) :: pySplit sep y
    rw [show pySplit sep (c :: (t ++ sep :: y)) =
      if c = sep then [] :: pySplit sep (t ++ sep :: y)
      else match pySplit sep (t ++ sep :: y) with
        | [] => [[c]]
        | h :: r => (c :: h) :: r from rfl]
    rw [if_neg hc, ih ht]

theorem pySplit_no_sep (sep : Nat) (x : PyStr) (hx : ∀ c ∈ x, c ≠ sep) :
    pySplit sep x = [x] := by
  induction x with
  | nil => rfl
  | cons c t ih =>
    have hc : c ≠ sep := hx c (List.mem_cons_self c t)
    have ht : ∀ d ∈ t, d ≠ sep := fun d hd => hx d (List.mem_cons_of_mem c hd)
    show pySplit sep (c :: t) = [c :: t]
    rw [show pySplit sep (c :: t) =
      if c = sep then [] :: pySplit sep t
      else match pySplit sep t with
        | [] => [[c]]
        | h :: r => (c :: h) :: r from rfl]
    rw [if_neg hc, ih ht]

theorem natToDigitsAux_dec_mem (fuel v : Nat) :
    ∀ c ∈ natToDigitsAux 10 fuel v, 48 ≤ c ∧ c ≤ 57 := by
  induction fuel generalizing v with
  | zero =>
    intro c hc
    simp only [natToDigitsAux, List.mem_singleton] at hc
    subst hc
    have hm : v % 10 < 10 := Nat.mod_lt v (by omega)
    unfold digitToChar
    rw [if_pos hm]
    omega
  | succ f ih =>
    intro c hc
    by_cases h : v < 10
    · simp only [natToDigitsAux, if_pos h, List.mem_singleton] at hc
      subst hc
      unfold digitToChar
      rw [if_pos h]
      omega
    · simp only [natToDigitsAux, if_neg h, List.mem_append,
        List.mem_singleton] at hc
      rcases hc with hc | hc
      · exact ih (v / 10) c hc
      · subst hc
        have hm : v % 10 < 10 := Nat.mod_lt v (by omega)
        unfold digitToChar
        rw [if_pos hm]
        omega

theorem natToDec_ne_dot (v : Nat) : ∀ c ∈ natToDigits 10 v, c ≠ 46 := by
  intro c hc
  have := natToDigitsAux_dec_mem v v c hc
  omega

/-- The dotted-quad text of four octet values, as hex_to_ip renders it. -/
def ipDotted (a b c d : Nat) : PyStr :=
  natToDigits 10 a ++ 46 :: (natToDigits 10 b ++ 46 ::
    (natToDigits 10 c ++ 46 :: natToDigits 10 d))

theorem hex_to_ip_eq_ipDotted (v : Nat) (hv : v < 4294967296) :
    hex_to_ip v = some (ipDotted (v % 256) (v / 256 % 256) (v / 65536 % 256)
      (v / 16777216 % 256)) := by
  unfold hex_to_ip
  rw [if_pos hv]
  unfold ipDotted
  simp [pyJoin, List.append_assoc]

theorem parseOctets_ipDotted (a b c d : Nat) :
    parseOctets (pySplit 46 (ipDotted a b c d)) = some [a, b, c, d] := by
  unfold ipDotted
  rw [pySplit_sep_cons 46 _ _ (natToDec_ne_dot a),
    pySplit_sep_cons 46 _ _ (natToDec_ne_dot b),
    pySplit_sep_cons 46 _ _ (natToDec_ne_dot c),
    pySplit_no_sep 46 _ (natToDec_ne_dot d)]
  have hp : ∀ v : Nat, parseDecStr (natToDigits 10 v) = some v := by
    intro v
    unfold parseDecStr
    rw [if_neg (natToDigits_ne_nil 10 v)]
    exact parseDecDigits_natToDigits v
  simp [parseOctets, hp]

theorem ip_quad_value (a b c d : Nat) (ha : a < 256) (hb : b < 256)
    (hc : c < 256) (hd : d < 256) :
    a ||| (b <<< 8) ||| (c <<< 16) ||| (d <<< 24) =
      16777216 * d + 65536 * c + 256 * b + a := by
  have h1 : a ||| (b <<< 8) = 256 * b + a :=
    lor_shiftLeft_eq_add b 8 (by omega)
  rw [h1]
  have h2 : 256 * b + a ||| (c <<< 16) = 65536 * c + (256 * b + a) :=
    lor_shiftLeft_eq_add c 16 (by omega)
  rw [h2]
  have h3 : 65536 * c + (256 * b + a) ||| (d <<< 24) =
      16777216 * d + (65536 * c + (256 * b + a)) :=
    lor_shiftLeft_eq_add d 24 (by omega)
  rw [h3]
  ring

theorem ip_roundtrip (a b c d : Nat) (ha : a < 256) (hb : b < 256)
    (hc : c < 256) (hd : d < 256) :
    ((ip_to_hex (ipDotted a b c d)).bind fun w =>
      (parseWireHex w).bind hex_to_ip) = some (ipDotted a b c d) := by
  have hne : ipDotted a b c d ≠ [] := by
    unfold ipDotted
    intro habs
    exact natToDigits_ne_nil 10 a (List.append_eq_nil.mp habs).1
  unfold ip_to_hex
  rw [if_neg hne, parseOctets_ipDotted a b c d]
  simp only [show List.getD [a, b, c, d] 0 0 = a from rfl,
    show List.getD [a, b, c, d] 1 0 = b from rfl,
    show List.getD [a, b, c, d] 2 0 = c from rfl,
    show List.getD [a, b, c, d] 3 0 = d from rfl,
    List.length_cons, List.length_nil]
  rw [if_pos (show 4 ≤ 0 + 1 + 1 + 1 + 1 by omega)]
  rw [ip_quad_value a b c d ha hb hc hd]
  by_cases hz : 16777216 * d + 65536 * c + 256 * b + a = 0
  · rw [if_pos hz]
    simp only [Option.some_bind]
    rw [show parseWireHex (lit "0x00") = some 0 from by decide]
    simp only [Option.some_bind]
    rw [show hex_to_ip 0 = some (ipDotted 0 0 0 0) from by
      simpa using hex_to_ip_eq_ipDotted 0 (by omega)]
    have h4 : a = 0 ∧ b = 0 ∧ c = 0 ∧ d = 0 := by omega
    obtain ⟨rfl, rfl, rfl, rfl⟩ := h4
    rfl
  · rw [if_neg hz]
    simp only [Option.some_bind]
    rw [show parseWireHex (int_to_hex
        (Int.ofNat (16777216 * d + 65536 * c + 256 * b + a))) =
        some (16777216 * d + 65536 * c + 256 * b + a) from by
      simpa using parseWireHex_int_to_hex_nonneg _ (by omega)]
    simp only [Option.some_bind]
    rw [hex_to_ip_eq_ipDotted _ (by omega)]
    have hma : (16777216 * d + 65536 * c + 256 * b + a) % 256 = a := by omega
    have hmb : (16777216 * d + 65536 * c + 256 * b + a) / 256 % 256 = b := by
      omega
    have hmc : (16777216 * d + 65536 * c + 256 * b + a) / 65536 % 256 = c := by
      omega
    have hmd : (16777216 * d + 65536 * c + 256 * b + a) / 16777216 % 256 =
        d := by omega
    rw [hma, hmb, hmc, hmd]

/-- hex_to_option from utils.py: index into the option list of a Literal
type, None past the end. -/
def hex_to_option (value : Nat) (options : List PyStr) : Option PyStr :=
  if options.length ≤ value then none else some (options.getD value [])

/-- Zero-padded two-digit hex rendering of an index, as the 02x format of
option_to_hex produces; one digit gets a leading zero. -/
def natToHex2 (n : Nat) : List Nat :=
  if (natToDigits 16 n).length < 2 then 48 :: natToDigits 16 n
  else natToDigits 16 n

/-- list.index as option_to_hex calls it: position of the first equal
element; the value of the function is unused when the element is absent
(the source raises ValueError there). -/
def optIndex (v : PyStr) : List PyStr → Nat
  | [] => 0
  | o :: t => if o = v then 0 else optIndex v t + 1

/-- option_to_hex from utils.py: the zero-based index of the value in the
option list as a 0x-prefixed two-digit hex string; a value missing from
the list raises ValueError, caught and turned into the literal 0x00. -/
def option_to_hex (value : PyStr) (options : List PyStr) : PyStr :=
  if value ∈ options then lit "0x" ++ natToHex2 (optIndex value options)
  else lit "0x00"

theorem optIndex_lt_length {v : PyStr} {opts : List PyStr} (h : v ∈ opts) :
    optIndex v opts < opts.length := by
  induction opts with
  | nil => simp at h
  | cons o t ih =>
    unfold optIndex
    by_cases ho : o = v
    · simp [ho]
    · rw [if_neg ho]
      have hv : v ∈ t := by
        rcases List.mem_cons.mp h with h1 | h1
        · exact absurd h1.symm ho
        · exact h1
      have := ih hv
      simp only [List.length_cons]
      omega

theorem getD_optIndex {v : PyStr} {opts : List PyStr} (h : v ∈ opts) :
    opts.getD (optIndex v opts) [] = v := by
  induction opts with
  | nil => simp at h
  | cons o t ih =>
    unfold optIndex
    by_cases ho : o = v
    · simp [ho]
    · rw [if_neg ho]
      have hv : v ∈ t := by
        rcases List.mem_cons.mp h with h1 | h1
        · exact absurd h1.symm ho
        · exact h1
      simpa [List.getD_cons_succ] using ih hv

/-- hex_to_partner_mac from utils.py: the all-zero or empty hex string is
the no-partner sentinel and decodes to the empty string. -/
def hex_to_partner_mac (s : PyStr) : PyStr :=
  if s = lit "000000000000" ∨ s = [] then [] else hex_to_mac s

/-- hex_to_partner_ip from utils.py: zero is the no-filter sentinel and
decodes to the empty string. -/
def hex_to_partner_ip (v : Nat) : Option PyStr :=
  if v = 0 then some [] else hex_to_ip v

/-- hex_to_bitshift_option from utils.py: per port, bit i of the low and
high masks combine into a two-bit index, clamped to the option count. -/
def hex_to_bitshift_option (low high : Nat) (options : List PyStr)
    (length : Nat) : List PyStr :=
  (List.range length).map fun i =>
    options.getD (min (((low >>> i) &&& 1) ||| (((high >>> i) &&& 1) <<< 1))
      (options.length - 1)) []

/-- hex_to_bool_option from utils.py: bit i selects between exactly two
options. -/
def hex_to_bool_option (value : Nat) (options : List PyStr)
    (length : Nat) : List PyStr :=
  (List.range length).map fun i =>
    if (value >>> i) &&& 1 ≠ 0 then options.getD 1 [] else options.getD 0 []

/-- str() of a Python int: decimal digits with a leading minus sign. -/
def intToDec (i : Int) : PyStr :=
  if i < 0 then 45 :: natToDigits 10 i.natAbs else natToDigits 10 i.toNat

/-- Embedding of the Python values validation handles: None, strings,
ints and lists of these. Floats are outside the validated claims. -/
inductive PyVal where
  | vNone
  | vStr (s : PyStr)
  | vInt (n : Int)
  | vList (l : List PyVal)

mutual

/-- repr() of a value, as f-string interpolation of list(...) renders
elements: strings quoted, ints decimal. -/
def pyValRepr : PyVal → PyStr
  | .vNone => lit "None"
  | .vStr s => [39] ++ s ++ [39]
  | .vInt n => intToDec n
  | .vList l => lit "[" ++ pyValReprList l ++ lit "]"

/-- Comma-joined reprs of list elements. -/
def pyValReprList : List PyVal → PyStr
  | [] => []
  | [x] => pyValRepr x
  | x :: y :: t => pyValRepr x ++ lit ", " ++ pyValReprList (y :: t)

end

/-- str() of a value, as a bare f-string placeholder renders it. -/
def pyValStr (v : PyVal) : PyStr :=
  match v with
  | .vStr s => s
  | other => pyValRepr other

/-- The field metadata keys validation reads; a missing options key and
an empty Literal both yield the empty option list, which the source
treats identically. -/
structure FieldMeta where
  type? : Option String := none
  writable : Bool := true
  maxLength? : Option Nat := none
  min? : Option Int := none
  max? : Option Int := none
  options : List PyStr := []
deriving DecidableEq

/-- One dataclass field: name, metadata (none models an empty metadata
mapping) and current value. -/
structure RecField where
  name : PyStr
  meta? : Option FieldMeta
  value : PyVal

/-- UTF-8 byte length, as len(v.encode()) in _validate_str. -/
def utf8ByteLen (s : PyStr) : Nat := (utf8Encode s).length

/-- The display truncation of _validate_str: v[:20] + dots when the
character count exceeds 20. -/
def truncStr (s : PyStr) : PyStr :=
  if 20 < s.length then s.take 20 ++ lit "..." else s

/-- The violation text of _validate_str for a scalar string field. -/
def strViolation (name s : PyStr) (maxLen : Nat) : PyStr :=
  name ++ lit ": " ++ [39] ++ truncStr s ++ [39] ++ lit " is " ++
    natToDigits 10 (utf8ByteLen s) ++ lit " bytes, max " ++
    natToDigits 10 maxLen

/-- The violation text of _validate_str for one element of an array
field, tagged with its index. -/
def strViolationIdx (name : PyStr) (i : Nat) (s : PyStr) (maxLen : Nat) :
    PyStr :=
  name ++ lit "[" ++ natToDigits 10 i ++ lit "]: " ++ [39] ++ truncStr s ++
    [39] ++ lit " is " ++ natToDigits 10 (utf8ByteLen s) ++
    lit " bytes, max " ++ natToDigits 10 maxLen

/-- The per-element check of the array arm of _validate_str: a
non-string element is skipped, an over-long string yields its indexed
violation. -/
def strElemCheck (name : PyStr) (maxLen : Nat) (p : Nat × PyVal) :
    List PyStr :=
  match p.2 with
  | .vStr s =>
    if maxLen < utf8ByteLen s then [strViolationIdx name p.1 s maxLen]
    else []
  | _ => []

/-- _validate_str from validation.py: UTF-8 byte length against
max_length with default 15; arrays are checked per element, non-string
elements skipped. -/
def _validate_str (name : PyStr) (value : PyVal) (meta : FieldMeta) :
    List PyStr :=
  let maxLen := meta.maxLength?.getD 15
  match value with
  | .vList l => (l.enum.map (strElemCheck name maxLen)).flatten
  | .vStr s =>
    if maxLen < utf8ByteLen s then [strViolation name s maxLen] else []
  | _ => []

/-- Violation text of _validate_int below the minimum. -/
def intViolationBelow (name : PyStr) (v m : Int) : PyStr :=
  name ++ lit ": " ++ intToDec v ++ lit " below minimum " ++ intToDec m

/-- Violation text of _validate_int above the maximum. -/
def intViolationAbove (name : PyStr) (v m : Int) : PyStr :=
  name ++ lit ": " ++ intToDec v ++ lit " above maximum " ++ intToDec m

/-- Indexed violation text of _validate_int below the minimum. -/
def intViolationBelowIdx (name : PyStr) (i : Nat) (v m : Int) : PyStr :=
  name ++ lit "[" ++ natToDigits 10 i ++ lit "]: " ++ intToDec v ++
    lit " below minimum " ++ intToDec m

/-- Indexed violation text of _validate_int above the maximum. -/
def intViolationAboveIdx (name : PyStr) (i : Nat) (v m : Int) : PyStr :=
  name ++ lit "[" ++ natToDigits 10 i ++ lit "]: " ++ intToDec v ++
    lit " above maximum " ++ intToDec m

/-- The per-value bound checks of _validate_int. -/
def intBoundErrs (mkBelow : Int → Int → PyStr) (mkAbove : Int → Int → PyStr)
    (meta : FieldMeta) (v : Int) : List PyStr :=
  (match meta.min? with
   | some m => if v < m then [mkBelow v m] else []
   | none => []) ++
  (match meta.max? with
   | some m => if m < v then [mkAbove v m] else []
   | none => [])

/-- _validate_int from validation.py: min/max bounds, no-op when neither
bound is declared; arrays are checked per element, non-numeric elements
skipped. -/
def _validate_int (name : PyStr) (value : PyVal) (meta : FieldMeta) :
    List PyStr :=
  match meta.min?, meta.max? with
  | none, none => []
  | _, _ =>
    match value with
    | .vList l =>
      (l.enum.map fun p =>
        match p.2 with
        | .vInt v =>
          intBoundErrs (intViolationBelowIdx name p.1)
            (intViolationAboveIdx name p.1) meta v
        | _ => []).flatten
    | .vInt v => intBoundErrs (intViolationBelow name) (intViolationAbove name) meta v
    | _ => []

/-- Python list repr of the option list, as the option violation texts
embed it. -/
def optListRepr (opts : List PyStr) : PyStr :=
  lit "[" ++ pyJoin (lit ", ") (opts.map fun o => [39] ++ o ++ [39]) ++
    lit "]"

/-- Membership of a value in a string option list; a non-string value
never equals a string. -/
def pyValInOpts (v : PyVal) (opts : List PyStr) : Bool :=
  match v with
  | .vStr s => s ∈ opts
  | _ => false

/-- Violation text of _validate_option for a scalar field. -/
def optViolation (name : PyStr) (v : PyVal) (opts : List PyStr) : PyStr :=
  name ++ lit ": " ++ [39] ++ pyValStr v ++ [39] ++ lit " not in " ++
    optListRepr opts

/-- Indexed violation text of _validate_option for one array element. -/
def optViolationIdx (name : PyStr) (i : Nat) (v : PyVal)
    (opts : List PyStr) : PyStr :=
  name ++ lit "[" ++ natToDigits 10 i ++ lit "]: " ++ [39] ++ pyValStr v ++
    [39] ++ lit " not in " ++ optListRepr opts

/-- _validate_option from validation.py: membership in the Literal
options; a missing options key or an empty option tuple validates
nothing. -/
def _validate_option (name : PyStr) (value : PyVal) (meta : FieldMeta) :
    List PyStr :=
  if meta.options = [] then []
  else
    match value with
    | .vList l =>
      (l.enum.map fun p =>
        if pyValInOpts p.2 meta.options then []
        else [optViolationIdx name p.1 p.2 meta.options]).flatten
    | v =>
      if pyValInOpts v meta.options then []
      else [optViolation name v meta.options]

/-- validate_dataclass from validation.py: fields with no metadata, a
false writable flag, a None value or no type tag are skipped; str, int
and option fields accumulate their violations in field order. -/
def validate_dataclass (rec : List RecField) : List PyStr :=
  rec.foldl
    (fun errors f =>
      match f.meta? with
      | none => errors
      | some m =>
        if m.writable = false then errors
        else
          match f.value with
          | .vNone => errors
          | v =>
            match m.type? with
            | none => errors
            | some t =>
              if t = "str" then errors ++ _validate_str f.name v m
              else if t = "int" then errors ++ _validate_int f.name v m
              else if t = "option" then errors ++ _validate_option f.name v m
              else errors)
    []

/-- The outcomes of Client.save: the raised errors and normal return. -/
inductive SaveOutcome where
  | readOnlyError
  | validationError (errors : List PyStr)
  | saveError (status : Nat)
  | ok
deriving DecidableEq

/-- Client.save from client.py: outcome paired with the number of
Transport post calls made. The endpoint-level readonly flag is checked
first, then validation when enabled, then the single POST whose
serialized body does not affect the control flow. -/
def client_save (readonly : Bool) (validate : Bool) (rec : List RecField)
    (postStatus : Nat) : SaveOutcome × Nat :=
  if readonly then (.readOnlyError, 0)
  else if validate = true ∧ validate_dataclass rec ≠ [] then
    (.validationError (validate_dataclass rec), 0)
  else if postStatus ≠ 200 then (.saveError postStatus, 1)
  else (.ok, 1)

/-- Leaf of a wire array: a hex-literal number or a quoted hex string. -/
inductive WireLeaf where
  | num (n : Int)
  | str (s : PyStr)
deriving DecidableEq

/-- A parsed wire value as the tolerant parser delivers it: scalar
number, string, or array. -/
inductive WireVal where
  | scalar (n : Int)
  | wstr (s : PyStr)
  | arr (l : List WireLeaf)
deriving DecidableEq

/-- isinstance(v, list) on a wire value. -/
def isArr : WireVal → Bool
  | .arr _ => true
  | _ => false

/-- The port-count inference of readDataclass (endpoint.py): the first
array-valued entry of the mapping; Python truthiness sends both a
missing array and an empty first array to the default 10. -/
def inferPortCount (m : List (PyStr × WireVal)) : Nat :=
  match (m.map Prod.snd).find? isArr with
  | some (.arr l) => if l.isEmpty then 10 else l.length
  | _ => 10

/-- readListDataclass from endpoint.py with the per-mapping parse
abstracted: an empty array gives no records, otherwise the port count is
inferred once from the first element and reused for every element. -/
def readListDataclass {α : Type} (parse : List (PyStr × WireVal) → Nat → α) :
    List (List (PyStr × WireVal)) → List α
  | [] => []
  | first :: rest =>
    (first :: rest).map fun item => parse item (inferPortCount first)

theorem range_map_getD {α : Type} (f : Nat → α) (n i : Nat) (d : α)
    (h : i < n) : ((List.range n).map f).getD i d = f i := by
  have hlen : i < ((List.range n).map f).length := by
    simpa using h
  rw [List.getD_eq_getElem _ _ hlen]
  simp

/-- C6: the claim reads that a bool-bitmask whose wire integer has set
bits at or above the inferred port count still decodes to exactly the
port-count length. The code pads the binary string but never truncates
it: hex_to_bool_list 4 2 has three entries, contradicting the function's
own docstring, which promises a list of the specified length. -/
theorem hex_to_bool_list_overflow_length :
    (hex_to_bool_list 4 2).length = 3 ∧
    hex_to_bool_list 4 2 = [false, false, true] := by
  decide

/-- C7: bool-bitmask encoding parses back to the bitmask value for every
input, an all-true list of length n encodes as the n-bit all-ones value,
the empty list encodes as the canonical zero literal, and bit i of the
mask equals element i, so bit i survives encode-then-decode
independently of all other bits. -/
theorem bool_bitmask_encode_decode :
    (∀ l : List Bool,
      parseWireHex (bool_list_to_hex l) = some (bitSumFrom 0 l)) ∧
    (∀ n : Nat, bitSumFrom 0 (List.replicate n true) = 2 ^ n - 1) ∧
    bool_list_to_hex [] = lit "0x00" ∧
    (∀ (l : List Bool) (i : Nat), i < l.length →
      Nat.testBit (bitSumFrom 0 l) i = l.getD i false ∧
      (hex_to_bool_list (bitSumFrom 0 l) l.length).getD i false =
        l.getD i false) := by
  refine ⟨parseWireHex_bool_list_to_hex, bitSumFrom_replicate_true, rfl, ?_⟩
  intro l i hi
  refine ⟨testBit_bitSumFrom l i, ?_⟩
  unfold hex_to_bool_list
  have hmax : i < max l.length (binWidth (bitSumFrom 0 l)) := by
    have := Nat.le_max_left l.length (binWidth (bitSumFrom 0 l))
    omega
  rw [range_map_getD _ _ _ _ hmax]
  exact testBit_bitSumFrom l i

theorem bool_bitmask_encode_decode_witness :
    0 < [true, false, true].length ∧
    (Nat.testBit (bitSumFrom 0 [true, false, true]) 0 =
      [true, false, true].getD 0 false ∧
      (hex_to_bool_list (bitSumFrom 0 [true, false, true])
        [true, false, true].length).getD 0 false =
        [true, false, true].getD 0 false) :=
  ⟨by decide, bool_bitmask_encode_decode.2.2.2 [true, false, true] 0 (by decide)⟩

/-- C8: enum-by-two-bit-pair decode is total: for a non-empty option
list the clamped two-bit index always lands inside the list, so every
port decodes to a listed option and the result has the requested
length. -/
theorem bitshift_option_total (low high len : Nat) (opts : List PyStr)
    (hne : opts ≠ []) :
    (hex_to_bitshift_option low high opts len).length = len ∧
    ∀ i, i < len →
      (hex_to_bitshift_option low high opts len).getD i [] ∈ opts := by
  constructor
  · simp [hex_to_bitshift_option]
  · intro i hi
    unfold hex_to_bitshift_option
    rw [range_map_getD _ _ _ _ hi]
    have hlen : 0 < opts.length := List.length_pos.mpr hne
    have hidx : min (((low >>> i) &&& 1) ||| (((high >>> i) &&& 1) <<< 1))
        (opts.length - 1) < opts.length := by omega
    rw [List.getD_eq_getElem _ _ hidx]
    exact List.getElem_mem hidx

theorem bitshift_option_total_witness :
    ([lit "shared", lit "point-to-point", lit "edge"] : List PyStr) ≠ [] ∧
    (hex_to_bitshift_option 1 2 [lit "shared", lit "point-to-point",
      lit "edge"] 2).length = 2 ∧
    (hex_to_bitshift_option 1 2 [lit "shared", lit "point-to-point",
      lit "edge"] 2).getD 1 [] ∈
      [lit "shared", lit "point-to-point", lit "edge"] :=
  ⟨by decide,
    (bitshift_option_total 1 2 2 _ (by decide)).1,
    (bitshift_option_total 1 2 2 _ (by decide)).2 1 (by decide)⟩

/-- C9: enum-by-index decode of an index at or past the end of the
option list yields None, a value distinct from every listed option,
instead of failing. -/
theorem enum_out_of_range_decodes_none (v : Nat) (opts : List PyStr)
    (h : opts.length ≤ v) :
    hex_to_option v opts = none ∧
    ∀ o ∈ opts, hex_to_option v opts ≠ some o := by
  have h1 : hex_to_option v opts = none := by
    unfold hex_to_option
    rw [if_pos h]
  exact ⟨h1, fun o _ => by rw [h1]; exact Option.noConfusion⟩

theorem enum_out_of_range_decodes_none_witness :
    ([lit "10M", lit "100M"] : List PyStr).length ≤ 5 ∧
    hex_to_option 5 [lit "10M", lit "100M"] = none :=
  ⟨by decide, (enum_out_of_range_decodes_none 5 _ (by decide)).1⟩

/-- C10: encoding an enum value that is missing from the option list
does not raise: the ValueError branch silently returns the 0x00
literal, the same wire text the first listed option encodes to. -/
theorem option_encode_unknown_as_zero (v : PyStr) (opts : List PyStr)
    (h : v ∉ opts) :
    option_to_hex v opts = lit "0x00" ∧
    ∀ o t, opts = o :: t → option_to_hex o opts = lit "0x00" := by
  constructor
  · unfold option_to_hex
    rw [if_neg h]
  · intro o t hot
    subst hot
    unfold option_to_hex
    rw [if_pos (List.mem_cons_self o t)]
    rw [show optIndex o (o :: t) = 0 from by simp [optIndex]]
    decide

theorem option_encode_unknown_as_zero_witness :
    (lit "bogus" ∉ ([lit "10M", lit "100M", lit "1G"] : List PyStr)) ∧
    option_to_hex (lit "bogus") [lit "10M", lit "100M", lit "1G"] =
      lit "0x00" ∧
    option_to_hex (lit "10M") [lit "10M", lit "100M", lit "1G"] =
      lit "0x00" :=
  ⟨by decide,
    (option_encode_unknown_as_zero _ _ (by decide)).1,
    (option_encode_unknown_as_zero (lit "bogus") _ (by decide)).2
      (lit "10M") [lit "100M", lit "1G"] rfl⟩

theorem validate_dataclass_single_str (name : PyStr) (m : FieldMeta)
    (v : PyVal) (ht : m.type? = some "str") (hw : m.writable = true)
    (hv : v ≠ PyVal.vNone) :
    validate_dataclass [⟨name, some m, v⟩] = _validate_str name v m := by
  cases v with
  | vNone => exact absurd rfl hv
  | vStr s =>
    simp [validate_dataclass, List.foldl_cons, List.foldl_nil, ht, hw]
  | vInt n =>
    simp [validate_dataclass, List.foldl_cons, List.foldl_nil, ht, hw]
  | vList l =>
    simp [validate_dataclass, List.foldl_cons, List.foldl_nil, ht, hw]

theorem validate_str_list_aux (name : PyStr) (maxLen : Nat) :
    ∀ (ss : List PyStr) (k : Nat),
      ((List.enumFrom k (ss.map PyVal.vStr)).map
        (strElemCheck name maxLen)).flatten =
      ((List.enumFrom k ss).filter fun p => maxLen < utf8ByteLen p.2).map
        fun p => strViolationIdx name p.1 p.2 maxLen := by
  intro ss
  induction ss with
  | nil => intro k; rfl
  | cons s t ih =>
    intro k
    have hl : List.enumFrom k ((s :: t).map PyVal.vStr) =
        (k, PyVal.vStr s) :: List.enumFrom (k + 1) (t.map PyVal.vStr) := rfl
    have hr : List.enumFrom k (s :: t) = (k, s) :: List.enumFrom (k + 1) t :=
      rfl
    rw [hl, hr, List.map_cons, List.flatten_cons, List.filter_cons]
    have hcheck : strElemCheck name maxLen (k, PyVal.vStr s) =
        if maxLen < utf8ByteLen s then [strViolationIdx name k s maxLen]
        else [] := rfl
    rw [hcheck]
    by_cases h : maxLen < utf8ByteLen s
    · rw [if_pos h, if_pos (by simpa using h), List.map_cons, ih (k + 1)]
      rfl
    · rw [if_neg h, if_neg (by simpa using h), List.nil_append]
      exact ih (k + 1)

/-- C3: the validator returns violations as data. A scalar string field
within the byte maximum (default 15) yields no violation; one byte over
yields exactly the message naming the field, the observed byte length
and the maximum; an array-valued string field yields one indexed
violation per over-long element rather than an aggregate failure. -/
theorem validator_string_byte_lengths :
    (∀ (name : PyStr) (m : FieldMeta) (s : PyStr), m.type? = some "str" →
      m.writable = true → utf8ByteLen s ≤ m.maxLength?.getD 15 →
      validate_dataclass [⟨name, some m, .vStr s⟩] = []) ∧
    (∀ (name : PyStr) (m : FieldMeta) (s : PyStr), m.type? = some "str" →
      m.writable = true → utf8ByteLen s = m.maxLength?.getD 15 + 1 →
      validate_dataclass [⟨name, some m, .vStr s⟩] =
        [strViolation name s (m.maxLength?.getD 15)]) ∧
    (∀ (name : PyStr) (m : FieldMeta) (ss : List PyStr),
      m.type? = some "str" → m.writable = true →
      validate_dataclass [⟨name, some m, .vList (ss.map .vStr)⟩] =
        (ss.enum.filter fun p => m.maxLength?.getD 15 < utf8ByteLen p.2).map
          fun p => strViolationIdx name p.1 p.2 (m.maxLength?.getD 15)) := by
  refine ⟨?_, ?_, ?_⟩
  · intro name m s ht hw h
    rw [validate_dataclass_single_str name m (.vStr s) ht hw (by simp)]
    simp [_validate_str, Nat.not_lt.mpr h]
  · intro name m s ht hw h
    have hlt : m.maxLength?.getD 15 < utf8ByteLen s := by omega
    rw [validate_dataclass_single_str name m (.vStr s) ht hw (by simp)]
    simp [_validate_str, hlt]
  · intro name m ss ht hw
    rw [validate_dataclass_single_str name m (.vList (ss.map .vStr)) ht hw
      (by simp)]
    show ((List.enum (ss.map PyVal.vStr)).map
      (strElemCheck name (m.maxLength?.getD 15))).flatten = _
    rw [show ∀ l : List PyVal, List.enum l = List.enumFrom 0 l from
      fun l => rfl]
    rw [show List.enum ss = List.enumFrom 0 ss from rfl]
    exact validate_str_list_aux name (m.maxLength?.getD 15) ss 0

theorem validator_string_byte_lengths_witness :
    ({ type? := some "str" } : FieldMeta).type? = some "str" ∧
    utf8ByteLen (lit "ABCDEFGHIJKLMNO") ≤ 15 ∧
    validate_dataclass [⟨lit "nm", some { type? := some "str" },
      .vStr (lit "ABCDEFGHIJKLMNO")⟩] = [] ∧
    utf8ByteLen (lit "ABCDEFGHIJKLMNOP") = 15 + 1 ∧
    validate_dataclass [⟨lit "nm", some { type? := some "str" },
      .vStr (lit "ABCDEFGHIJKLMNOP")⟩] =
      [strViolation (lit "nm") (lit "ABCDEFGHIJKLMNOP") 15] ∧
    validate_dataclass [⟨lit "nm", some { type? := some "str" },
      .vList ([lit "ok", lit "ABCDEFGHIJKLMNOP"].map .vStr)⟩] =
      (([lit "ok", lit "ABCDEFGHIJKLMNOP"] : List PyStr).enum.filter
        fun p => 15 < utf8ByteLen p.2).map
        fun p => strViolationIdx (lit "nm") p.1 p.2 15 :=
  ⟨rfl, by decide,
    validator_string_byte_lengths.1 (lit "nm") _ _ rfl rfl (by decide),
    by decide,
    validator_string_byte_lengths.2.1 (lit "nm") _ _ rfl rfl (by decide),
    validator_string_byte_lengths.2.2 (lit "nm") _ _ rfl rfl⟩

/-- A record with one over-long writable string field, used to witness
the save orchestration claim. -/
def overlongNameField : RecField :=
  ⟨lit "name", some { type? := some "str" }, .vStr (lit "ABCDEFGHIJKLMNOP")⟩

/-- C2: a save against a read-only endpoint yields the read-only error
with zero Transport calls, whatever the validation flag and record data
(so the read-only check precedes validation); and a save whose
validation fails yields the validation error carrying the violation
list, again with zero Transport calls. -/
theorem save_aborts_before_transport :
    (∀ (validate : Bool) (rec : List RecField) (st : Nat),
      client_save true validate rec st = (SaveOutcome.readOnlyError, 0)) ∧
    (∀ (rec : List RecField) (st : Nat), validate_dataclass rec ≠ [] →
      client_save false true rec st =
        (SaveOutcome.validationError (validate_dataclass rec), 0)) := by
  constructor
  · intro v rec st
    rfl
  · intro rec st h
    unfold client_save
    rw [if_neg (by simp), if_pos ⟨rfl, h⟩]

theorem save_aborts_before_transport_witness :
    validate_dataclass [overlongNameField] ≠ [] ∧
    client_save true true [overlongNameField] 200 =
      (SaveOutcome.readOnlyError, 0) ∧
    client_save false true [overlongNameField] 200 =
      (SaveOutcome.validationError (validate_dataclass [overlongNameField]),
        0) :=
  ⟨by decide,
    save_aborts_before_transport.1 true [overlongNameField] 200,
    save_aborts_before_transport.2 [overlongNameField] 200 (by decide)⟩

/-- C4 counterexample: encoding the empty partner MAC yields the bare
quoted empty hex string, not the quoted all-zero string the claim says
it re-encodes to. -/
theorem partner_mac_empty_encodes_empty_not_all_zero :
    mac_to_hex [] = [39, 39] ∧
    mac_to_hex [] ≠ 39 :: (lit "000000000000" ++ [39]) := by
  decide

/-- C4 amended: both partner-MAC wire sentinels (all-zero and empty hex
string) decode to the empty string; the empty string re-encodes to the
empty-hex-string sentinel (not the all-zero form), which decodes back to
empty; partner-IP zero decodes to empty and empty re-encodes to the
canonical zero literal, which parses to the zero sentinel again. -/
theorem partner_sentinels_amended :
    hex_to_partner_mac (lit "000000000000") = [] ∧
    hex_to_partner_mac [] = [] ∧
    mac_to_hex [] = [39, 39] ∧
    hex_to_partner_mac (unquote (mac_to_hex [])) = [] ∧
    hex_to_partner_ip 0 = some [] ∧
    ip_to_hex [] = some (lit "0x00") ∧
    parseWireHex (lit "0x00") = some 0 ∧
    (parseWireHex (lit "0x00")).bind hex_to_partner_ip = some [] := by
  decide

theorem find?_isArr_append (pre post : List (PyStr × WireVal)) (k : PyStr)
    (l : List WireLeaf) (hpre : ∀ kv ∈ pre, isArr kv.2 = false) :
    ((pre ++ (k, WireVal.arr l) :: post).map Prod.snd).find? isArr =
      some (WireVal.arr l) := by
  induction pre with
  | nil =>
    show (WireVal.arr l :: post.map Prod.snd).find? isArr =
      some (WireVal.arr l)
    exact List.find?_cons_of_pos _ rfl
  | cons kv t ih =>
    have hkv := hpre kv (List.mem_cons_self kv t)
    show (kv.2 :: (t ++ (k, WireVal.arr l) :: post).map Prod.snd).find?
      isArr = some (WireVal.arr l)
    rw [List.find?_cons_of_neg _ (by simp [hkv])]
    exact ih fun x hx => hpre x (List.mem_cons_of_mem kv hx)

/-- C5 counterexample: a wire mapping whose first array-valued field is
the empty array infers port count 10, not 0 as the claim states, because
Python truthiness treats the empty list like a missing one. -/
theorem inferPortCount_empty_first_array :
    inferPortCount [(lit "a", .arr []), (lit "b", .arr [.num 1, .num 2])] =
      10 ∧
    inferPortCount [(lit "a", .arr []), (lit "b", .arr [.num 1, .num 2])] ≠
      0 := by
  decide

/-- C5 amended: the inferred port count is the length of the first
array-valued field when that array is non-empty; it is 10 both when no
array-valued field is present and when the first array-valued field is
the empty array; list decoding infers the count once from the first
element and reuses it for every element. -/
theorem port_count_inference_amended :
    (∀ (pre post : List (PyStr × WireVal)) (k : PyStr) (l : List WireLeaf),
      (∀ kv ∈ pre, isArr kv.2 = false) →
      inferPortCount (pre ++ (k, WireVal.arr l) :: post) =
        if l.isEmpty then 10 else l.length) ∧
    (∀ m : List (PyStr × WireVal), (∀ kv ∈ m, isArr kv.2 = false) →
      inferPortCount m = 10) ∧
    (∀ (α : Type) (parse : List (PyStr × WireVal) → Nat → α)
      (first : List (PyStr × WireVal))
      (rest : List (List (PyStr × WireVal))) (i : Nat)
      (dI : List (PyStr × WireVal)) (dA : α), i < (first :: rest).length →
      (readListDataclass parse (first :: rest)).getD i dA =
        parse ((first :: rest).getD i dI) (inferPortCount first)) := by
  refine ⟨?_, ?_, ?_⟩
  · intro pre post k l hpre
    unfold inferPortCount
    rw [find?_isArr_append pre post k l hpre]
  · intro m hm
    unfold inferPortCount
    rw [List.find?_eq_none.mpr ?_]
    intro x hx
    rcases List.mem_map.mp hx with ⟨kv, hkv, rfl⟩
    simp [hm kv hkv]
  · intro α parse first rest i dI dA hi
    unfold readListDataclass
    rw [List.getD_eq_getElem _ _ (by simpa using hi), List.getElem_map,
      List.getD_eq_getElem _ _ hi]

theorem port_count_inference_amended_witness :
    (∀ kv ∈ ([(lit "x", WireVal.scalar 3)] : List (PyStr × WireVal)),
      isArr kv.2 = false) ∧
    inferPortCount ([(lit "x", WireVal.scalar 3)] ++
      (lit "b", WireVal.arr [.num 1, .num 2]) :: []) = 2 ∧
    inferPortCount [(lit "x", WireVal.scalar 3)] = 10 ∧
    (readListDataclass (fun _ n => n)
      [[(lit "p", WireVal.arr [.num 7])]]).getD 0 0 =
      (fun (_ : List (PyStr × WireVal)) (n : Nat) => n)
        ([[(lit "p", WireVal.arr [.num 7])]].getD 0 [])
        (inferPortCount [(lit "p", WireVal.arr [.num 7])]) :=
  ⟨by decide,
    port_count_inference_amended.1 [(lit "x", WireVal.scalar 3)] []
      (lit "b") [.num 1, .num 2] (by decide),
    port_count_inference_amended.2.1 [(lit "x", WireVal.scalar 3)]
      (by decide),
    port_count_inference_amended.2.2 Nat (fun _ n => n)
      [(lit "p", WireVal.arr [.num 7])] [] 0 [] 0 (by decide)⟩

theorem parseWireHex_natToHex2 (n : Nat) :
    parseWireHex (lit "0x" ++ natToHex2 n) = some n := by
  unfold natToHex2
  by_cases h : (natToDigits 16 n).length < 2
  · rw [if_pos h]
    show parseWireHex (48 :: 120 :: 48 :: natToDigits 16 n) = some n
    have hne : (48 :: natToDigits 16 n) ≠ ([] : List Nat) := by simp
    unfold parseWireHex
    simp only [if_neg hne]
    have hstep : parseDigitsFrom 16 hexDigitVal 0 (48 :: natToDigits 16 n) =
        parseDigitsFrom 16 hexDigitVal 0 (natToDigits 16 n) := by
      simp [parseDigitsFrom, hexDigitVal]
    rw [hstep]
    exact parseHexDigits_natToDigits n
  · rw [if_neg h]
    show parseWireHex (48 :: 120 :: natToDigits 16 n) = some n
    unfold parseWireHex
    simp only [if_neg (natToDigits_ne_nil 16 n)]
    exact parseHexDigits_natToDigits n

/-- C1 amended: decode-of-encode identities for the writable transforms,
on the domain the code actually supports. Strings round-trip when their
code points are encodable and they carry no trailing NUL or whitespace
(hex_to_str strips those on decode). Integers round-trip when
non-negative (and, for signed fields with a bit width, below half the
range); negative signed values do not round-trip, because int_to_hex
renders a minus sign instead of the unsigned wire form. Canonical MAC
text, dotted-quad IPs, and enum values present in the option list
round-trip exactly. -/
theorem writable_field_roundtrips_amended :
    (∀ s : PyStr, (∀ c ∈ s, validPyChar c) →
      pyRstrip pyIsSpace (pyRstrip (fun c => c == 0) s) = s →
      hex_to_str (unquote (str_to_hex s)) = some s) ∧
    (∀ (signed : Bool) (bits : Nat) (x : Int), 0 ≤ x →
      (signed = true → bits ≠ 0 → x < 2 ^ (bits - 1)) →
      (parseWireHex (int_to_hex x)).map (process_int signed bits) = some x) ∧
    (∀ u : PyStr, u.length = 12 → (∀ c ∈ u, isUpperHexChar c) →
      hex_to_mac (unquote (mac_to_hex (pyJoin [58] (chunk2 u)))) =
        pyJoin [58] (chunk2 u)) ∧
    (∀ a b c d : Nat, a < 256 → b < 256 → c < 256 → d < 256 →
      ((ip_to_hex (ipDotted a b c d)).bind fun w =>
        (parseWireHex w).bind hex_to_ip) = some (ipDotted a b c d)) ∧
    (∀ (v : PyStr) (opts : List PyStr), v ∈ opts →
      parseWireHex (option_to_hex v opts) = some (optIndex v opts) ∧
      hex_to_option (optIndex v opts) opts = some v) := by
  refine ⟨?_, ?_, mac_roundtrip, ip_roundtrip, ?_⟩
  · intro s hv hr
    exact hex_to_str_str_to_hex s (fun c hc => (hv c hc).1) hr
  · intro sgn bits x hx hlt
    rw [parseWireHex_int_to_hex_nonneg x hx]
    simp only [Option.map_some']
    unfold process_int
    by_cases hs : sgn = true ∧ bits ≠ 0 ∧ 2 ^ (bits - 1) ≤ x.toNat
    · exfalso
      obtain ⟨h1, h2, h3⟩ := hs
      have h4 := hlt h1 h2
      have h5 : (x.toNat : Int) = x := Int.toNat_of_nonneg hx
      have h6 : ((2 ^ (bits - 1) : Nat) : Int) ≤ (x.toNat : Int) := by
        exact_mod_cast h3
      rw [h5] at h6
      push_cast at h6
      linarith
    · rw [if_neg hs, Int.toNat_of_nonneg hx]
  · intro v opts hv
    constructor
    · unfold option_to_hex
      rw [if_pos hv]
      exact parseWireHex_natToHex2 (optIndex v opts)
    · unfold hex_to_option
      have hlt := optIndex_lt_length hv
      rw [if_neg (by omega), getD_optIndex hv]

theorem writable_field_roundtrips_amended_witness :
    hex_to_str (unquote (str_to_hex (lit "Port1"))) = some (lit "Port1") ∧
    (parseWireHex (int_to_hex 5)).map (process_int true 8) = some 5 ∧
    hex_to_mac (unquote (mac_to_hex
      (pyJoin [58] (chunk2 (lit "AABBCCDDEEFF"))))) =
        pyJoin [58] (chunk2 (lit "AABBCCDDEEFF")) ∧
    ((ip_to_hex (ipDotted 192 168 88 1)).bind fun w =>
      (parseWireHex w).bind hex_to_ip) = some (ipDotted 192 168 88 1) ∧
    parseWireHex (option_to_hex (lit "1G")
      [lit "10M", lit "100M", lit "1G"]) =
      some (optIndex (lit "1G") [lit "10M", lit "100M", lit "1G"]) ∧
    hex_to_option (optIndex (lit "1G") [lit "10M", lit "100M", lit "1G"])
      [lit "10M", lit "100M", lit "1G"] = some (lit "1G") :=
  ⟨writable_field_roundtrips_amended.1 (lit "Port1") (by decide) (by decide),
    writable_field_roundtrips_amended.2.1 true 8 5 (by decide)
      (fun _ _ => by decide),
    writable_field_roundtrips_amended.2.2.1 (lit "AABBCCDDEEFF") (by decide)
      (by decide),
    writable_field_roundtrips_amended.2.2.2.1 192 168 88 1 (by decide)
      (by decide) (by decide) (by decide),
    (writable_field_roundtrips_amended.2.2.2.2 (lit "1G")
      [lit "10M", lit "100M", lit "1G"] (by decide)).1,
    (writable_field_roundtrips_amended.2.2.2.2 (lit "1G")
      [lit "10M", lit "100M", lit "1G"] (by decide)).2⟩

/-- C1 counterexample: the negative signed value -1 (bit width 8) does
not round-trip through decode-of-encode: int_to_hex renders the Python
hex of -1 with a minus sign, a wire literal the hex parse rejects, so
the composite yields none instead of -1. -/
theorem signed_negative_roundtrip_fails :
    (parseWireHex (int_to_hex (-1))).map (process_int true 8) ≠
      some (-1) ∧
    int_to_hex (-1) = lit "0x-1" := by
  decide
